import Mathlib

/-!
Verification of the BOOK_CREATOR RAG core against its specification.

This file shallowly embeds the RAG subsystem of the repository:
* `DocumentProcessor.chunk_text` from `src/rag/pdf_processor.py`
  (modelled by `chunkText`, with explicit fuel since the Python `while`
  loop need not terminate),
* `fact_pack` from `src/rag/retrieve_backup.py` (modelled by `fact_pack`),
* `ingest_file` / `ingest_directory` from `src/rag/ingest.py`
  (modelled by `ingest_file` / `ingest_directory` over an explicit
  association-list vector store with ChromaDB upsert semantics).

Python machine-level details are modelled faithfully: `str` slicing with
clamping and negative-index normalization (`pyIdx`, `pySlice`),
`str.rfind` with its `[lo, hi)` search window (`pyRfind`), `str.strip`
(`pyStrip`), truthiness of strings (emptiness tests), `dict.get`
defaulting (`Option.getD`), Python `or` on strings (`pyOrStr`), and
`round(x, 2)` as round-half-to-even at two decimals over exact rationals
(`round2`).
-/

namespace BookCreator

/-- Whitespace characters removed by Python `str.strip()` (ASCII range;
the model restricts texts to ASCII whitespace conventions). -/
def isPySpace (c : Char) : Bool :=
  c == ' ' || c == '\t' || c == '\n' || c == '\r' || c == '\x0b' || c == '\x0c'

/-- Python `str.strip()`: drop whitespace from both ends. -/
def pyStrip (l : List Char) : List Char :=
  ((l.dropWhile isPySpace).reverse.dropWhile isPySpace).reverse

/-- Normalize a Python slice index into `[0, len]`: negative indices
count from the end, and both directions clamp. -/
def pyIdx (len : Nat) (i : Int) : Nat :=
  if i < 0 then (i + len).toNat else min i.toNat len

/-- Python `t[i:j]` for a list of characters. -/
def pySlice (t : List Char) (i j : Int) : List Char :=
  (t.take (pyIdx t.length j)).drop (pyIdx t.length i)

/-- Index, relative to the head of `l`, of the last occurrence of `sub`
inside `l` (the whole occurrence must fit inside `l`). -/
def lastOcc (sub : List Char) : List Char → Option Nat
  | [] => none
  | c :: rest =>
    match lastOcc sub rest with
    | some r => some (r + 1)
    | none => if (c :: rest).take sub.length == sub then some 0 else none

/-- Python `t.rfind(sub, i, j)`: the highest position of an occurrence of
`sub` lying entirely inside the normalized window `[lo, hi)`, or `-1`. -/
def pyRfind (t sub : List Char) (i j : Int) : Int :=
  let lo := pyIdx t.length i
  let hi := pyIdx t.length j
  match lastOcc sub ((t.take hi).drop lo) with
  | some r => ((lo + r : Nat) : Int)
  | none => -1

/-- A retained window of `chunk_text`: the character span `[fst, snd)`
that the trimmed chunk occupies in the source text, paired with the
trimmed characters themselves (the Python function returns only the
string; the span is ghost data recording its position). -/
abbrev Window := (Nat × Nat) × List Char

/-- Length of the leading whitespace of a character list. -/
def wsLead (l : List Char) : Nat := (l.takeWhile isPySpace).length

/-- `text[start:end].strip()` together with the span it occupies. -/
def mkWindow (t : List Char) (s e : Int) : Window :=
  let lo := pyIdx t.length s
  let sl := pySlice t s e
  ((lo + wsLead sl, lo + wsLead sl + (pyStrip sl).length), pyStrip sl)

/-- The end-of-window computation of one `chunk_text` iteration: raw end
`start + chunk_size`; if that lies strictly inside the text, try to snap
back to the last `'.'` found in `[max(start+chunk_size-100, start), end)`
(Python keeps it only when strictly past `search_start`), else to the
last `"\n\n"`. -/
def chunkEnd (t : List Char) (cs start : Int) : Int :=
  let e0 : Int := start + cs
  if e0 < (t.length : Int) then
    let ss : Int := max (start + cs - 100) start
    let se : Int := pyRfind t ['.'] ss e0
    if se > ss then se + 1
    else
      let pe : Int := pyRfind t ['\n', '\n'] ss e0
      if pe > ss then pe + 2 else e0
  else e0

/-- The `while` loop of `DocumentProcessor.chunk_text`
(`src/rag/pdf_processor.py`), with explicit fuel because the Python loop
need not terminate.  Faithful to the source: compute the window end
(`chunkEnd`), strip the slice and keep it when non-empty (Python string
truthiness), advance `start` to `end - overlap`, break when the new
start passes the end of the text. -/
def chunkLoop (t : List Char) (cs ov : Int) : Nat → Int → List Window → Option (List Window)
  | 0, _, _ => none
  | fuel + 1, start, acc =>
    if start < (t.length : Int) then
      let e1 := chunkEnd t cs start
      let w := mkWindow t start e1
      let acc2 := if w.2.isEmpty then acc else acc ++ [w]
      let s2 := e1 - ov
      if s2 ≥ (t.length : Int) then some acc2 else chunkLoop t cs ov fuel s2 acc2
    else some acc

/-- `DocumentProcessor.chunk_text(text, chunk_size, overlap)`.  When the
text fits in one chunk it is returned unchanged (not stripped); otherwise
the windowing loop runs.  `none` means the loop did not finish within
`fuel` iterations (the Python code would still be running). -/
def chunkText (t : List Char) (cs ov : Int) (fuel : Nat) : Option (List Window) :=
  if (t.length : Int) ≤ cs then some [((0, t.length), t)]
  else chunkLoop t cs ov fuel 0 []

/-! ### General lemmas about the chunker -/

theorem lastOcc_dot_replicate (k : Nat) : lastOcc ['.'] (List.replicate k 'a') = none := by
  induction k with
  | zero => rfl
  | succ n ih => simp [List.replicate_succ, lastOcc, ih]

theorem lastOcc_nn_replicate (k : Nat) : lastOcc ['\n', '\n'] (List.replicate k 'a') = none := by
  induction k with
  | zero => rfl
  | succ n ih => simp [List.replicate_succ, lastOcc, ih, List.take]

theorem region_replicate (n lo hi : Nat) :
    ((List.replicate n 'a').take hi).drop lo = List.replicate (min hi n - lo) 'a' := by
  rw [List.take_replicate, List.drop_replicate]

theorem pyRfind_dot_replicate (n : Nat) (i j : Int) :
    pyRfind (List.replicate n 'a') ['.'] i j = -1 := by
  unfold pyRfind
  simp only [List.length_replicate, region_replicate, lastOcc_dot_replicate]

theorem pyRfind_nn_replicate (n : Nat) (i j : Int) :
    pyRfind (List.replicate n 'a') ['\n', '\n'] i j = -1 := by
  unfold pyRfind
  simp only [List.length_replicate, region_replicate, lastOcc_nn_replicate]

theorem dropWhile_ws_replicate (k : Nat) :
    (List.replicate k 'a').dropWhile isPySpace = List.replicate k 'a' := by
  cases k with
  | zero => rfl
  | succ n => simp [List.replicate_succ, List.dropWhile]; rfl

theorem takeWhile_ws_replicate (k : Nat) :
    (List.replicate k 'a').takeWhile isPySpace = [] := by
  cases k with
  | zero => rfl
  | succ n => simp [List.replicate_succ, List.takeWhile]; rfl

theorem pyStrip_replicate (k : Nat) : pyStrip (List.replicate k 'a') = List.replicate k 'a' := by
  unfold pyStrip
  rw [dropWhile_ws_replicate, List.reverse_replicate, dropWhile_ws_replicate,
    List.reverse_replicate]

theorem wsLead_replicate (k : Nat) : wsLead (List.replicate k 'a') = 0 := by
  unfold wsLead; rw [takeWhile_ws_replicate]; rfl

theorem isEmpty_replicate (k : Nat) : (List.replicate k 'a').isEmpty = (k == 0) := by
  cases k <;> rfl

theorem mkWindow_replicate (n : Nat) (s e : Int) :
    mkWindow (List.replicate n 'a') s e =
      ((pyIdx n s, pyIdx n s + (min (pyIdx n e) n - pyIdx n s)),
        List.replicate (min (pyIdx n e) n - pyIdx n s) 'a') := by
  unfold mkWindow pySlice
  simp only [List.length_replicate, region_replicate, pyStrip_replicate, wsLead_replicate,
    List.length_replicate, Nat.add_zero]

theorem mkWindow_replicate_eval (n : Nat) (s e : Int) (a b : Nat)
    (hs : pyIdx n s = a) (he : pyIdx n e = b) (hab : a ≤ b) (hbn : b ≤ n) :
    mkWindow (List.replicate n 'a') s e = ((a, b), List.replicate (b - a) 'a') := by
  rw [mkWindow_replicate, hs, he, min_eq_left hbn, Nat.add_sub_cancel' hab]

theorem chunkEnd_replicate (n : Nat) (cs start : Int) (h : -1 ≤ start) :
    chunkEnd (List.replicate n 'a') cs start = start + cs := by
  unfold chunkEnd
  simp only [List.length_replicate, pyRfind_dot_replicate, pyRfind_nn_replicate]
  have h1 : ¬ ((-1 : Int) > max (start + cs - 100) start) := by
    simp only [not_lt, gt_iff_lt]
    exact le_trans h (le_max_right _ _)
  simp only [gt_iff_lt, if_neg (by exact fun hx => h1 hx)]
  split <;> rfl

theorem chunkLoop_succ (t : List Char) (cs ov : Int) (fuel : Nat) (start : Int)
    (acc : List Window) :
    chunkLoop t cs ov (fuel + 1) start acc =
      if start < (t.length : Int) then
        let e1 := chunkEnd t cs start
        let w := mkWindow t start e1
        let acc2 := if w.2.isEmpty then acc else acc ++ [w]
        let s2 := e1 - ov
        if s2 ≥ (t.length : Int) then some acc2 else chunkLoop t cs ov fuel s2 acc2
      else some acc := rfl

theorem chunkLoop_replicate_step (n : Nat) (cs ov : Int) (fuel : Nat) (start : Int)
    (acc : List Window) (a b : Nat) (h0 : 0 ≤ start) (hlt : start < (n : Int))
    (hs : pyIdx n start = a) (he : pyIdx n (start + cs) = b) (hab : a < b) (hbn : b ≤ n)
    (hcont : start + cs - ov < (n : Int)) :
    chunkLoop (List.replicate n 'a') cs ov (fuel + 1) start acc =
      chunkLoop (List.replicate n 'a') cs ov fuel (start + cs - ov)
        (acc ++ [((a, b), List.replicate (b - a) 'a')]) := by
  rw [chunkLoop_succ]
  dsimp only
  rw [List.length_replicate]
  rw [if_pos hlt]
  rw [chunkEnd_replicate n cs start (le_trans (by norm_num) h0)]
  rw [mkWindow_replicate_eval n start (start + cs) a b hs he (le_of_lt hab) hbn]
  rw [isEmpty_replicate]
  rw [if_neg (not_le.mpr hcont)]
  rw [if_neg (by simpa using Nat.sub_ne_zero_of_lt hab)]

theorem chunkLoop_replicate_last (n : Nat) (cs ov : Int) (fuel : Nat) (start : Int)
    (acc : List Window) (a b : Nat) (h0 : 0 ≤ start) (hlt : start < (n : Int))
    (hs : pyIdx n start = a) (he : pyIdx n (start + cs) = b) (hab : a < b) (hbn : b ≤ n)
    (hstop : (n : Int) ≤ start + cs - ov) :
    chunkLoop (List.replicate n 'a') cs ov (fuel + 1) start acc =
      some (acc ++ [((a, b), List.replicate (b - a) 'a')]) := by
  rw [chunkLoop_succ]
  dsimp only
  rw [List.length_replicate]
  rw [if_pos hlt]
  rw [chunkEnd_replicate n cs start (le_trans (by norm_num) h0)]
  rw [mkWindow_replicate_eval n start (start + cs) a b hs he (le_of_lt hab) hbn]
  rw [isEmpty_replicate]
  rw [if_pos hstop]
  rw [if_neg (by simpa using Nat.sub_ne_zero_of_lt hab)]

/-- With `overlap = chunk_size = 10` on an 11-character boundary-free
text, one loop iteration cuts at `end = start + 10` and restarts at
`end - 10 = start`: the loop state never advances. -/
theorem chunkLoop_overlap_stuck (fuel : Nat) : ∀ acc : List Window,
    chunkLoop (List.replicate 11 'a') 10 10 fuel 0 acc = none := by
  induction fuel with
  | zero => intro acc; rfl
  | succ n ih =>
      intro acc
      have h : chunkLoop (List.replicate 11 'a') 10 10 (n + 1) 0 acc =
          chunkLoop (List.replicate 11 'a') 10 10 n 0
            (acc ++ [((0, 10), List.replicate 10 'a')]) := rfl
      rw [h]; exact ih _

/-- Full evaluation of `chunk_text` on a 2500-character uniform text with
`chunk_size = 1000`, `overlap = 200`: four windows, at spans
`(0,1000)`, `(800,1800)`, `(1600,2500)`, `(2400,2500)`. -/
theorem chunk2500_eval :
    chunkText (List.replicate 2500 'a') 1000 200 10 =
      some [((0, 1000), List.replicate 1000 'a'),
            ((800, 1800), List.replicate 1000 'a'),
            ((1600, 2500), List.replicate 900 'a'),
            ((2400, 2500), List.replicate 100 'a')] := by
  unfold chunkText
  rw [List.length_replicate, if_neg (by decide)]
  rw [show (10 : Nat) = 9 + 1 from rfl,
    chunkLoop_replicate_step 2500 1000 200 9 0 [] 0 1000 (by decide) (by decide) (by decide)
      (by decide) (by decide) (by decide) (by decide)]
  norm_num
  rw [show (9 : Nat) = 8 + 1 from rfl,
    chunkLoop_replicate_step 2500 1000 200 8 800 _ 800 1800 (by decide) (by decide) (by decide)
      (by decide) (by decide) (by decide) (by decide)]
  norm_num
  rw [show (8 : Nat) = 7 + 1 from rfl,
    chunkLoop_replicate_step 2500 1000 200 7 1600 _ 1600 2500 (by decide) (by decide) (by decide)
      (by decide) (by decide) (by decide) (by decide)]
  norm_num
  rw [show (7 : Nat) = 6 + 1 from rfl,
    chunkLoop_replicate_last 2500 1000 200 6 2400 _ 2400 2500 (by decide) (by decide) (by decide)
      (by decide) (by decide) (by decide) (by decide)]
  norm_num

/-! ### List and slicing lemmas for the coverage proof -/


theorem takeWhile_length_le (p : Char → Bool) :
    ∀ (l : List Char) (j : Nat) (h : j < l.length), p l[j] = false →
      (l.takeWhile p).length ≤ j := by
  intro l
  induction l with
  | nil => intro j h; exact absurd h (by simp)
  | cons c rest ih =>
      intro j h hn
      cases hp : p c with
      | false => simp [List.takeWhile_cons, hp]
      | true =>
          cases j with
          | zero => rw [List.getElem_cons_zero] at hn; rw [hn] at hp; exact absurd hp (by simp)
          | succ j =>
              have hj : j < rest.length := by simpa using h
              have hle : (rest.takeWhile p).length ≤ j := by
                refine ih j hj ?_
                rw [← List.getElem_cons_succ (a := c) (h := h)]
                exact hn
              simp [List.takeWhile_cons, hp]
              omega

theorem dropWhile_eq_drop (p : Char → Bool) :
    ∀ l : List Char, l.dropWhile p = l.drop (l.takeWhile p).length := by
  intro l
  induction l with
  | nil => rfl
  | cons c rest ih =>
      cases hp : p c with
      | false => simp [List.dropWhile_cons, List.takeWhile_cons, hp]
      | true => simp [List.dropWhile_cons, List.takeWhile_cons, hp, ih]

theorem takeWhile_add_dropWhile_length (p : Char → Bool) (l : List Char) :
    (l.takeWhile p).length + (l.dropWhile p).length = l.length := by
  conv_rhs => rw [← List.takeWhile_append_dropWhile (p := p) (l := l)]
  rw [List.length_append]

theorem getElem_dropWhile (p : Char → Bool) :
    ∀ (l : List Char) (j : Nat) (hj : j < (l.dropWhile p).length)
      (hb : (l.takeWhile p).length + j < l.length),
      (l.dropWhile p)[j] = l[(l.takeWhile p).length + j] := by
  intro l
  induction l with
  | nil => intro j hj hb; exact absurd hj (by simp)
  | cons c rest ih =>
      intro j hj hb
      cases hp : p c with
      | false => simp [List.dropWhile_cons, List.takeWhile_cons, hp]
      | true =>
          have hj2 : j < (rest.dropWhile p).length := by
            simpa [List.dropWhile_cons, hp] using hj
          have hb2 : (rest.takeWhile p).length + j < rest.length := by
            have := takeWhile_add_dropWhile_length p rest
            omega
          calc (List.dropWhile p (c :: rest))[j]
              = (List.dropWhile p rest)[j] := by
                simp [List.dropWhile_cons, hp]
            _ = rest[(rest.takeWhile p).length + j] := ih j hj2 hb2
            _ = (c :: rest)[((c :: rest).takeWhile p).length + j] := by
                have hK : ((c :: rest).takeWhile p).length + j =
                    ((rest.takeWhile p).length + j) + 1 := by
                  simp [List.takeWhile_cons, hp]
                  omega
                exact ((getElem_congr hK).trans (List.getElem_cons_succ _ _ _ _)).symm

theorem rev_trim_bound (d : List Char) (j : Nat) (hj : j < d.length)
    (hn : isPySpace d[j] = false) :
    j < d.length - (d.reverse.takeWhile isPySpace).length := by
  have hr : d.length - 1 - j < d.reverse.length := by
    rw [List.length_reverse]; omega
  have hget2 : d.reverse[d.length - 1 - j] = d[j] := by
    rw [List.getElem_reverse]
    exact getElem_congr (by omega)
  have htrail := takeWhile_length_le isPySpace d.reverse _ hr (by rw [hget2]; exact hn)
  omega

theorem pyStrip_length (l : List Char) :
    (pyStrip l).length =
      (l.dropWhile isPySpace).length -
        ((l.dropWhile isPySpace).reverse.takeWhile isPySpace).length := by
  unfold pyStrip
  rw [List.length_reverse, dropWhile_eq_drop, List.length_drop, List.length_reverse]

theorem pyStrip_bounds (l : List Char) (j : Nat) (h : j < l.length)
    (hn : isPySpace l[j] = false) :
    wsLead l ≤ j ∧ j < wsLead l + (pyStrip l).length := by
  have hlead : wsLead l ≤ j := takeWhile_length_le isPySpace l j h hn
  refine ⟨hlead, ?_⟩
  have hsum : wsLead l + (l.dropWhile isPySpace).length = l.length :=
    takeWhile_add_dropWhile_length isPySpace l
  have hj1 : j - wsLead l < (l.dropWhile isPySpace).length := by omega
  have hb : (l.takeWhile isPySpace).length + (j - wsLead l) < l.length := by
    have hwl : (l.takeWhile isPySpace).length = wsLead l := rfl
    omega
  have hget1 : (l.dropWhile isPySpace)[j - wsLead l] = l[j] := by
    rw [getElem_dropWhile isPySpace l (j - wsLead l) hj1 hb]
    exact getElem_congr (by
      have hwl : (l.takeWhile isPySpace).length = wsLead l := rfl
      omega)
  have hrev := rev_trim_bound (l.dropWhile isPySpace) (j - wsLead l) hj1
    (by rw [hget1]; exact hn)
  have hstrip := pyStrip_length l
  omega



theorem pyIdx_le (n : Nat) (i : Int) : pyIdx n i ≤ n := by
  unfold pyIdx
  split <;> omega

theorem pyIdx_nonneg_le (n : Nat) (i : Int) (h : 0 ≤ i) : (pyIdx n i : Int) ≤ i := by
  unfold pyIdx
  rw [if_neg (not_lt.mpr h)]
  omega

theorem lastOcc_le (sub : List Char) :
    ∀ (l : List Char) (r : Nat), lastOcc sub l = some r → r + sub.length ≤ l.length := by
  intro l
  induction l with
  | nil => intro r h; exact absurd h (by simp [lastOcc])
  | cons c rest ih =>
      intro r h
      rw [lastOcc] at h
      cases hm : lastOcc sub rest with
      | some r0 =>
          rw [hm] at h
          simp at h
          have := ih r0 hm
          simp
          omega
      | none =>
          rw [hm] at h
          by_cases hb : ((c :: rest).take sub.length == sub) = true
          · rw [if_pos hb] at h
            simp at h
            have heq : (c :: rest).take sub.length = sub := by
              exact eq_of_beq hb
            have hlen : ((c :: rest).take sub.length).length = sub.length := by rw [heq]
            rw [List.length_take, List.length_cons] at hlen
            simp
            omega
          · rw [if_neg hb] at h
            exact absurd h (by simp)

theorem pyRfind_spec (t sub : List Char) (i j : Int) (hsub : 0 < sub.length)
    (h : -1 < pyRfind t sub i j) :
    (pyIdx t.length i : Int) ≤ pyRfind t sub i j ∧
      pyRfind t sub i j + sub.length ≤ (pyIdx t.length j : Int) := by
  unfold pyRfind at h ⊢
  dsimp only at h ⊢
  cases hm : lastOcc sub ((t.take (pyIdx t.length j)).drop (pyIdx t.length i)) with
  | none =>
      rw [hm] at h
      exact absurd h (by norm_num)
  | some r0 =>
      dsimp only at h ⊢
      have hle := lastOcc_le sub _ r0 hm
      rw [List.length_drop, List.length_take] at hle
      have hj_le := pyIdx_le t.length j
      constructor
      · simp
      · push_cast
        omega

theorem mkWindow_covers (t : List Char) (start e1 : Int) (h0 : 0 ≤ start)
    (i : Nat) (hi : i < t.length) (hsi : (start : Int) ≤ (i : Int)) (hie : ((i : Nat) : Int) < e1)
    (hnws : isPySpace t[i] = false) :
    (mkWindow t start e1).2.isEmpty = false ∧
      (mkWindow t start e1).1.1 ≤ i ∧ i < (mkWindow t start e1).1.2 := by
  have he1 : 0 ≤ e1 := le_trans (by positivity) (le_of_lt hie)
  have hs_le : pyIdx t.length start ≤ i := by
    unfold pyIdx
    rw [if_neg (not_lt.mpr h0)]
    omega
  have he_gt : i < pyIdx t.length e1 := by
    unfold pyIdx
    rw [if_neg (not_lt.mpr he1)]
    omega
  have he_len : pyIdx t.length e1 ≤ t.length := pyIdx_le t.length e1
  have hsl_len : (pySlice t start e1).length =
      pyIdx t.length e1 - pyIdx t.length start := by
    unfold pySlice
    rw [List.length_drop, List.length_take]
    omega
  have hj : i - pyIdx t.length start < (pySlice t start e1).length := by omega
  have hget : (pySlice t start e1)[i - pyIdx t.length start] = t[i] := by
    unfold pySlice
    rw [List.getElem_drop, List.getElem_take]
    exact getElem_congr (by omega)
  have hbounds := pyStrip_bounds (pySlice t start e1) (i - pyIdx t.length start) hj
    (by rw [hget]; exact hnws)
  unfold mkWindow
  dsimp only
  refine ⟨?_, ?_, ?_⟩
  · rw [List.isEmpty_eq_false]
    rw [← List.length_pos]
    have hwl : wsLead (pySlice t start e1) ≤ i - pyIdx t.length start := hbounds.1
    omega
  · omega
  · omega

theorem chunkEnd_bounds (t : List Char) (cs start : Int) (h0 : 0 ≤ start) (hcs : 99 ≤ cs) :
    start + cs - 98 ≤ chunkEnd t cs start ∧ chunkEnd t cs start ≤ start + cs := by
  unfold chunkEnd
  dsimp only
  by_cases hlt : start + cs < (t.length : Int)
  · rw [if_pos hlt]
    have he0 : (0 : Int) ≤ start + cs := by omega
    by_cases hse : pyRfind t ['.'] (max (start + cs - 100) start) (start + cs) >
        max (start + cs - 100) start
    · rw [if_pos hse]
      have hspec := pyRfind_spec t ['.'] (max (start + cs - 100) start) (start + cs)
        (by simp) (by
          refine lt_of_le_of_lt ?_ hse
          have h1 : (-1 : Int) ≤ start := by omega
          exact le_trans h1 (le_max_right _ _))
      have hub := hspec.2
      have hmax : max (start + cs - 100) start ≥ start + cs - 100 := le_max_left _ _
      have hidx := pyIdx_nonneg_le t.length (start + cs) he0
      simp at hub
      constructor
      · omega
      · omega
    · rw [if_neg hse]
      by_cases hpe : pyRfind t ['\n', '\n'] (max (start + cs - 100) start) (start + cs) >
          max (start + cs - 100) start
      · rw [if_pos hpe]
        have hspec := pyRfind_spec t ['\n', '\n'] (max (start + cs - 100) start) (start + cs)
          (by simp) (by
            refine lt_of_le_of_lt ?_ hpe
            have h1 : (-1 : Int) ≤ start := by omega
            exact le_trans h1 (le_max_right _ _))
        have hub := hspec.2
        have hmax : max (start + cs - 100) start ≥ start + cs - 100 := le_max_left _ _
        have hidx := pyIdx_nonneg_le t.length (start + cs) he0
        simp at hub
        constructor
        · omega
        · omega
      · rw [if_neg hpe]
        omega
  · rw [if_neg hlt]
    omega



theorem chunkLoop_coverage (t : List Char) (cs ov : Int) (hov : 0 ≤ ov) (hcs : ov + 99 ≤ cs) :
    ∀ (fuel : Nat) (start : Int) (acc ws : List Window), 0 ≤ start →
      chunkLoop t cs ov fuel start acc = some ws →
      (∀ (i : Nat) (hi : i < t.length), (i : Int) < start →
        isPySpace t[i] = false → ∃ w ∈ acc, w.1.1 ≤ i ∧ i < w.1.2) →
      ∀ (i : Nat) (hi : i < t.length), isPySpace t[i] = false →
        ∃ w ∈ ws, w.1.1 ≤ i ∧ i < w.1.2 := by
  intro fuel
  induction fuel with
  | zero =>
      intro start acc ws hs hrun hinv
      exact absurd hrun (by simp [chunkLoop])
  | succ n ih =>
      intro start acc ws hs hrun hinv
      rw [chunkLoop_succ] at hrun
      dsimp only at hrun
      by_cases hlt : start < (t.length : Int)
      · rw [if_pos hlt] at hrun
        have hb := chunkEnd_bounds t cs start hs (by omega)
        have hprog : start + ov < chunkEnd t cs start := by omega
        by_cases hbrk : chunkEnd t cs start - ov ≥ (t.length : Int)
        · rw [if_pos hbrk] at hrun
          intro i hi hnws
          have hcast : (i : Int) < (t.length : Int) := by exact_mod_cast hi
          by_cases hio : (i : Int) < start
          · obtain ⟨w, hw, hcov⟩ := hinv i hi hio hnws
            refine ⟨w, ?_, hcov⟩
            rw [← Option.some.inj hrun]
            split
            · exact hw
            · exact List.mem_append_left _ hw
          · have hcovw := mkWindow_covers t start (chunkEnd t cs start) hs i hi
              (by omega) (by omega) hnws
            refine ⟨mkWindow t start (chunkEnd t cs start), ?_, hcovw.2⟩
            rw [← Option.some.inj hrun]
            rw [hcovw.1]
            simp
        · rw [if_neg hbrk] at hrun
          refine ih (chunkEnd t cs start - ov) _ ws (by omega) hrun ?_
          intro i hi hio hnws
          have hcast : (i : Int) < (t.length : Int) := by exact_mod_cast hi
          by_cases hio2 : (i : Int) < start
          · obtain ⟨w, hw, hcov⟩ := hinv i hi hio2 hnws
            refine ⟨w, ?_, hcov⟩
            split
            · exact hw
            · exact List.mem_append_left _ hw
          · have hcovw := mkWindow_covers t start (chunkEnd t cs start) hs i hi
              (by omega) (by omega) hnws
            refine ⟨mkWindow t start (chunkEnd t cs start), ?_, hcovw.2⟩
            rw [hcovw.1]
            simp
      · rw [if_neg hlt] at hrun
        intro i hi hnws
        have hcast : (i : Int) < (t.length : Int) := by exact_mod_cast hi
        have hio : (i : Int) < start := by omega
        obtain ⟨w, hw, hcov⟩ := hinv i hi hio hnws
        rw [← Option.some.inj hrun]
        exact ⟨w, hw, hcov⟩

/-! ### Claim theorems for the chunker -/

/-- C1: the claim says a call with `overlap ≥ chunk_size` is rejected or
clamped rather than looping forever.  The code has no such guard: with
`chunk_size = overlap = 10` on an 11-character boundary-free text, the
window is cut at `end = start + 10` and the next start is
`end - overlap = start`, so the loop never terminates — `chunk_text`
returns no result for any amount of fuel. -/
theorem chunk_text_overlap_eq_loops_forever :
    ∀ fuel : Nat, chunkText (List.replicate 11 'a') 10 10 fuel = none := by
  intro fuel
  unfold chunkText
  rw [if_neg (by decide)]
  exact chunkLoop_overlap_stuck fuel []

/-- C3 counterexample: chunking the uniform 2500-character text (no
sentence or paragraph boundaries) with `chunk_size = 1000`,
`overlap = 200` returns 4 windows, not 3 as the claim states. -/
theorem chunk_text_2500_not_three_windows :
    (chunkText (List.replicate 2500 'a') 1000 200 10).map List.length = some 4 ∧
      (chunkText (List.replicate 2500 'a') 1000 200 10).map List.length ≠ some 3 := by
  have h := congrArg (Option.map List.length) chunk2500_eval
  refine ⟨h.trans rfl, ?_⟩
  rw [h]
  decide

/-- C3 amended: chunking a 2500-character text with `chunk_size = 1000`,
`overlap = 200` can return 4 windows: on the uniform boundary-free text
the windows span `(0,1000)`, `(800,1800)`, `(1600,2500)`, `(2400,2500)`,
so windows 1–2 and 2–3 each share exactly 200 characters of overlap and
windows 3–4 share 100. -/
theorem chunk_text_2500_windows :
    chunkText (List.replicate 2500 'a') 1000 200 10 =
      some [((0, 1000), List.replicate 1000 'a'),
            ((800, 1800), List.replicate 1000 'a'),
            ((1600, 2500), List.replicate 900 'a'),
            ((2400, 2500), List.replicate 100 'a')] ∧
      1000 - 800 = 200 ∧ 1800 - 1600 = 200 ∧ 2500 - 2400 = 100 :=
  ⟨chunk2500_eval, rfl, rfl, rfl⟩

/-- C2 counterexample: with `overlap = 2 < 5 = chunk_size` on a text of
six spaces, `chunk_text` terminates with an empty window list (every
window strips to empty and is discarded), so no character of the text is
covered by any returned window. -/
theorem chunk_text_whitespace_uncovered :
    chunkText (List.replicate 6 ' ') 5 2 10 = some [] ∧
      ¬ (∀ ws, chunkText (List.replicate 6 ' ') 5 2 10 = some ws →
          ∀ i, i < (List.replicate 6 ' ').length →
            ∃ w ∈ ws, w.1.1 ≤ i ∧ i < w.1.2) := by
  refine ⟨by decide, fun h => ?_⟩
  rcases h [] (by decide) 0 (by decide) with ⟨w, hw, _⟩
  simp at hw


/-- C2 amended: the claim promises every character of the text appears in
some returned window; trimming makes that false for whitespace (see the
counterexample), and for general `overlap < chunk_size` the loop need not
even terminate (cf. C1).  What holds: whenever `0 ≤ overlap` and
`overlap + 99 ≤ chunk_size` (satisfied by the defaults 1000/200) and
`chunk_text` returns, every non-whitespace character of the text lies in
the span of at least one returned window. -/
theorem chunk_text_nonws_coverage (t : List Char) (cs ov : Int) (hov : 0 ≤ ov)
    (hcs : ov + 99 ≤ cs) (fuel : Nat) (ws : List Window)
    (hrun : chunkText t cs ov fuel = some ws) :
    ∀ (i : Nat) (hi : i < t.length), isPySpace t[i] = false →
      ∃ w ∈ ws, w.1.1 ≤ i ∧ i < w.1.2 := by
  unfold chunkText at hrun
  by_cases hsm : (t.length : Int) ≤ cs
  · rw [if_pos hsm] at hrun
    intro i hi hnws
    rw [← Option.some.inj hrun]
    exact ⟨((0, t.length), t), by simp, Nat.zero_le i, hi⟩
  · rw [if_neg hsm] at hrun
    exact chunkLoop_coverage t cs ov hov hcs fuel 0 [] ws (le_refl 0) hrun
      (fun i hi hio hnws => absurd hio (by omega))

/-- Witness for C2 amended: concrete run on the two-character text
`"hi"` with `chunk_size = 99`, `overlap = 0`, checking coverage of the
character at index 0. -/
theorem chunk_text_nonws_coverage_witness :
    ∃ w ∈ [((0, 2), (['h', 'i'] : List Char))], w.1.1 ≤ 0 ∧ 0 < w.1.2 :=
  chunk_text_nonws_coverage ['h', 'i'] 99 0 (by norm_num) (by norm_num) 1
    [((0, 2), ['h', 'i'])] (by rfl) 0 (by norm_num) (by rfl)

/-! ## Retrieval: fact_pack (src/rag/retrieve_backup.py) -/

/-- Round-half-to-even of a rational to an integer, as Python round()
does on an exact value. -/
def roundHalfEven (q : ℚ) : ℤ :=
  if q - ⌊q⌋ < 1/2 then ⌊q⌋
  else if 1/2 < q - ⌊q⌋ then ⌊q⌋ + 1
  else if ⌊q⌋ % 2 = 0 then ⌊q⌋ else ⌊q⌋ + 1

/-- Python round(x, 2) over exact rationals. -/
def round2 (q : ℚ) : ℚ := (roundHalfEven (100 * q) : ℚ) / 100

/-- Metadata of a stored hit as fact_pack reads it via dict.get: every
field may be absent. -/
structure RMeta where
  citeKey : Option String
  source : Option String
  title : Option String
  url : Option String
  page : Option Int
  filename : Option String
deriving DecidableEq

/-- The source descriptor of a fact-pack item. -/
structure SourceDesc where
  title : String
  url : Option String
  page : Option Int
  filename : Option String
deriving DecidableEq

/-- One fact-pack item returned by fact_pack. -/
structure FactItem where
  text : String
  citeKey : String
  source : SourceDesc
  confidence : ℚ
deriving DecidableEq

/-- Python `a or b` where `a` is an optional string: `b` when `a` is
missing or empty (empty strings are falsy in Python). -/
def pyOrStr : Option String → String → String
  | some s, b => if s = "" then b else s
  | none, b => b

/-- A Chroma query result: parallel outer lists (one entry per query
text) of documents, metadatas and distances.  The `[0]` indexing in the
source selects the inner list; a missing or empty outer list yields
`[]`. -/
structure QueryRes where
  documents : List (List String)
  metadatas : List (List RMeta)
  distances : List (List ℚ)

/-- `xs[0] if xs else []`. -/
def firstOrNil : List (List α) → List α
  | [] => []
  | x :: _ => x

/-- Python zip of three lists (truncates to the shortest). -/
def zip3 : List α → List β → List γ → List (α × β × γ)
  | a :: as, b :: bs, c :: cs => (a, b, c) :: zip3 as bs cs
  | _, _, _ => []

/-- The body of fact_pack's loop: build one fact-pack item from a hit.
`confidence = max(0.1, 1.0 - distance)` rounded to two decimals;
`citeKey = meta.get("citeKey") or meta.get("source", f"source_{i}")`;
`title = meta.get("title") or meta.get("source", "Unknown Source")`. -/
def mkItem (i : Nat) (doc : String) (m : RMeta) (d : ℚ) : FactItem :=
  { text := doc
    citeKey := pyOrStr m.citeKey (m.source.getD ("source_" ++ toString i))
    source :=
      { title := pyOrStr m.title (m.source.getD "Unknown Source")
        url := m.url
        page := m.page
        filename := m.filename }
    confidence := round2 (max (1/10) (1 - d)) }

/-- The enumerate-and-append loop of fact_pack, in hit order. -/
def buildPacks (i : Nat) : List (String × RMeta × ℚ) → List FactItem
  | [] => []
  | (doc, m, d) :: rest => mkItem i doc m d :: buildPacks (i + 1) rest

/-- The hit triples `zip(docs, metas, distances)` that fact_pack's loop
iterates over. -/
def queryHits (res : QueryRes) : List (String × RMeta × ℚ) :=
  zip3 (firstOrNil res.documents) (firstOrNil res.metadatas) (firstOrNil res.distances)

/-- `fact_pack(query)` from `src/rag/retrieve_backup.py`: on a successful
store query, one item per (document, metadata, distance) triple, in the
store's order; the surrounding try/except turns any raised error into
`[]`. -/
def fact_pack : Except Unit QueryRes → List FactItem
  | .error _ => []
  | .ok res => buildPacks 0 (queryHits res)

theorem length_buildPacks (L : List (String × RMeta × ℚ)) :
    ∀ i, (buildPacks i L).length = L.length := by
  induction L with
  | nil => intro i; rfl
  | cons x rest ih =>
      intro i
      obtain ⟨doc, m, d⟩ := x
      simp [buildPacks, ih]

theorem getElem_buildPacks (L : List (String × RMeta × ℚ)) :
    ∀ (i j : Nat) (h : j < (buildPacks i L).length) (h2 : j < L.length),
      (buildPacks i L)[j] =
        mkItem (i + j) (L[j]).1 (L[j]).2.1 (L[j]).2.2 := by
  induction L with
  | nil => intro i j h h2; exact absurd h2 (by simp)
  | cons x rest ih =>
      intro i j h h2
      obtain ⟨doc, m, d⟩ := x
      cases j with
      | zero => simp [buildPacks]
      | succ j =>
          have hh : j < (buildPacks (i + 1) rest).length := by
            rw [length_buildPacks]
            simpa using h2
          have := ih (i + 1) j hh (by simpa using h2)
          simp [buildPacks]
          rw [this]
          congr 1
          omega



theorem roundHalfEven_intCast (n : ℤ) : roundHalfEven (n : ℚ) = n := by
  unfold roundHalfEven
  rw [Int.floor_intCast]
  rw [if_pos (by norm_num)]

theorem floor_le_roundHalfEven (q : ℚ) : ⌊q⌋ ≤ roundHalfEven q := by
  unfold roundHalfEven
  split
  · exact le_refl _
  · split
    · omega
    · split <;> omega

theorem roundHalfEven_le_floor_add_one (q : ℚ) : roundHalfEven q ≤ ⌊q⌋ + 1 := by
  unfold roundHalfEven
  split
  · omega
  · split
    · omega
    · split <;> omega

theorem roundHalfEven_mono {q r : ℚ} (h : q ≤ r) : roundHalfEven q ≤ roundHalfEven r := by
  rcases lt_or_eq_of_le (Int.floor_mono h) with hf | hf
  · calc roundHalfEven q ≤ ⌊q⌋ + 1 := roundHalfEven_le_floor_add_one q
      _ ≤ ⌊r⌋ := by omega
      _ ≤ roundHalfEven r := floor_le_roundHalfEven r
  · unfold roundHalfEven
    rw [← hf]
    by_cases h1 : q - ⌊q⌋ < 1/2
    · rw [if_pos h1]
      split
      · exact le_refl _
      · split
        · omega
        · split <;> omega
    · rw [if_neg h1]
      have h2 : ¬ (r - ⌊q⌋ < 1/2) := by
        intro hc
        apply h1
        have : q - (⌊q⌋ : ℚ) ≤ r - ⌊q⌋ := by linarith
        linarith
      rw [if_neg h2]
      by_cases h3 : 1/2 < q - ⌊q⌋
      · rw [if_pos h3]
        rw [if_pos (by linarith)]
      · rw [if_neg h3]
        by_cases h4 : 1/2 < r - ⌊q⌋
        · rw [if_pos h4]
          split <;> omega
        · rw [if_neg h4]

theorem round2_mono {q r : ℚ} (h : q ≤ r) : round2 q ≤ round2 r := by
  unfold round2
  have := roundHalfEven_mono (show 100 * q ≤ 100 * r by linarith)
  have hcast : ((roundHalfEven (100 * q) : ℤ) : ℚ) ≤ ((roundHalfEven (100 * r) : ℤ) : ℚ) := by
    exact_mod_cast this
  linarith

theorem round2_bounds (x : ℚ) (h1 : 1/10 ≤ x) (h2 : x ≤ 1) :
    1/10 ≤ round2 x ∧ round2 x ≤ 1 := by
  have hlo := roundHalfEven_mono (show ((10 : ℤ) : ℚ) ≤ 100 * x by push_cast; linarith)
  have hhi := roundHalfEven_mono (show 100 * x ≤ ((100 : ℤ) : ℚ) by push_cast; linarith)
  rw [roundHalfEven_intCast] at hlo hhi
  unfold round2
  constructor
  · have : ((10 : ℤ) : ℚ) ≤ (roundHalfEven (100 * x) : ℚ) := by exact_mod_cast hlo
    push_cast at this ⊢
    linarith
  · have : (roundHalfEven (100 * x) : ℚ) ≤ ((100 : ℤ) : ℚ) := by exact_mod_cast hhi
    push_cast at this ⊢
    linarith

/-! ### Claim theorems for the retriever -/


theorem round2_123 : round2 (max (1/10) (1 - 123/1000) : ℚ) = 22/25 := by
  unfold round2
  rw [max_eq_right (by norm_num : (1:ℚ)/10 ≤ 1 - 123/1000)]
  rw [show (100 : ℚ) * (1 - 123/1000) = 877/10 by norm_num]
  rw [show roundHalfEven (877/10 : ℚ) = 88 by unfold roundHalfEven; norm_num]
  norm_num

theorem zip3_nil_left {α β γ : Type} (bs : List β) (cs : List γ) :
    zip3 ([] : List α) bs cs = [] := rfl

theorem zip3_nil_mid {α β γ : Type} (a : α) (as : List α) (cs : List γ) :
    zip3 (a :: as) ([] : List β) cs = [] := rfl

theorem zip3_nil_right {α β γ : Type} (a : α) (as : List α) (b : β) (bs : List β) :
    zip3 (a :: as) (b :: bs) ([] : List γ) = [] := rfl

theorem zip3_cons {α β γ : Type} (a : α) (as : List α) (b : β) (bs : List β)
    (c : γ) (cs : List γ) :
    zip3 (a :: as) (b :: bs) (c :: cs) = (a, b, c) :: zip3 as bs cs := rfl

theorem zip3_mem_third {α β γ : Type} :
    ∀ (as : List α) (bs : List β) (cs : List γ) (x : α × β × γ),
      x ∈ zip3 as bs cs → x.2.2 ∈ cs := by
  intro as
  induction as with
  | nil => intro bs cs x hx; rw [zip3_nil_left] at hx; exact absurd hx (by simp)
  | cons a as ih =>
      intro bs cs x hx
      cases bs with
      | nil => rw [zip3_nil_mid] at hx; exact absurd hx (by simp)
      | cons b bs =>
          cases cs with
          | nil => rw [zip3_nil_right] at hx; exact absurd hx (by simp)
          | cons c cs =>
              rw [zip3_cons] at hx
              rcases List.mem_cons.mp hx with h | h
              · rw [h]; exact List.mem_cons_self _ _
              · exact List.mem_cons_of_mem _ (ih bs cs x h)

theorem zip3_pairwise_third {α β γ : Type} (R : γ → γ → Prop) :
    ∀ (as : List α) (bs : List β) (cs : List γ), cs.Pairwise R →
      (zip3 as bs cs).Pairwise (fun x y => R x.2.2 y.2.2) := by
  intro as
  induction as with
  | nil => intro bs cs hp; rw [zip3_nil_left]; exact List.Pairwise.nil
  | cons a as ih =>
      intro bs cs hp
      cases bs with
      | nil => rw [zip3_nil_mid]; exact List.Pairwise.nil
      | cons b bs =>
          cases cs with
          | nil => rw [zip3_nil_right]; exact List.Pairwise.nil
          | cons c cs =>
              rw [zip3_cons]
              rcases List.pairwise_cons.mp hp with ⟨hhead, htail⟩
              refine List.pairwise_cons.mpr ⟨?_, ih bs cs htail⟩
              intro x hx
              exact hhead x.2.2 (zip3_mem_third as bs cs x hx)

theorem buildPacks_mem_conf (L : List (String × RMeta × ℚ)) :
    ∀ (i : Nat) (x : FactItem), x ∈ buildPacks i L →
      ∃ y ∈ L, x.confidence = round2 (max (1/10) (1 - y.2.2)) := by
  induction L with
  | nil => intro i x hx; exact absurd hx (by simp [buildPacks])
  | cons t rest ih =>
      intro i x hx
      obtain ⟨doc, m, d⟩ := t
      rw [buildPacks] at hx
      rcases List.mem_cons.mp hx with h | h
      · exact ⟨(doc, m, d), List.mem_cons_self _ _, by rw [h]; rfl⟩
      · obtain ⟨y, hy, hconf⟩ := ih (i + 1) x h
        exact ⟨y, List.mem_cons_of_mem _ hy, hconf⟩

theorem conf_antitone {d e : ℚ} (h : d ≤ e) :
    round2 (max (1/10) (1 - e)) ≤ round2 (max (1/10) (1 - d)) :=
  round2_mono (max_le_max (le_refl _) (by linarith))

theorem buildPacks_conf_pairwise (L : List (String × RMeta × ℚ)) :
    ∀ i : Nat, L.Pairwise (fun x y => x.2.2 ≤ y.2.2) →
      (buildPacks i L).Pairwise (fun u v => v.confidence ≤ u.confidence) := by
  induction L with
  | nil => intro i _; exact List.Pairwise.nil
  | cons t rest ih =>
      intro i hp
      obtain ⟨doc, m, d⟩ := t
      rw [buildPacks]
      rcases List.pairwise_cons.mp hp with ⟨hhead, htail⟩
      refine List.pairwise_cons.mpr ⟨?_, ih (i + 1) htail⟩
      intro v hv
      obtain ⟨y, hy, hconf⟩ := buildPacks_mem_conf rest (i + 1) v hv
      rw [hconf]
      exact conf_antitone (hhead y hy)

theorem buildPacks_map_text (L : List (String × RMeta × ℚ)) :
    ∀ i : Nat, (buildPacks i L).map FactItem.text = L.map (fun x => x.1) := by
  induction L with
  | nil => intro i; rfl
  | cons t rest ih =>
      intro i
      obtain ⟨doc, m, d⟩ := t
      simp [buildPacks, ih (i + 1)]
      rfl



/-- C4 counterexample: with distance 0.123 the stored confidence is
round(0.877, 2) = 0.88, not max(0.1, 1 - 0.123) = 0.877. -/
theorem fact_pack_confidence_is_rounded :
    (fact_pack (Except.ok ⟨[["x"]], [[⟨none, none, none, none, none, none⟩]],
        [[(123/1000 : ℚ)]]⟩)).map FactItem.confidence = [(22/25 : ℚ)] ∧
      (22/25 : ℚ) ≠ max (1/10) (1 - 123/1000) := by
  constructor
  · rw [show (fact_pack (Except.ok ⟨[["x"]], [[⟨none, none, none, none, none, none⟩]],
        [[(123/1000 : ℚ)]]⟩)).map FactItem.confidence =
        [round2 (max (1/10) (1 - 123/1000))] from rfl]
    rw [round2_123]
  · rw [max_eq_right (by norm_num : (1:ℚ)/10 ≤ 1 - 123/1000)]
    norm_num

/-- C4 amended: the confidence field of each fact-pack item equals
round(max(0.1, 1.0 - distance), 2) for that hit's distance, and when the
distance is non-negative it lies in [0.1, 1.0]. -/
theorem fact_pack_confidence_formula (res : QueryRes) (j : Nat)
    (h : j < (fact_pack (Except.ok res)).length) :
    ∃ h2 : j < (queryHits res).length,
      ((fact_pack (Except.ok res))[j]).confidence =
        round2 (max (1/10) (1 - ((queryHits res)[j]).2.2)) ∧
      (0 ≤ ((queryHits res)[j]).2.2 →
        1/10 ≤ ((fact_pack (Except.ok res))[j]).confidence ∧
          ((fact_pack (Except.ok res))[j]).confidence ≤ 1) := by
  have h2 : j < (queryHits res).length := by
    have hl := length_buildPacks (queryHits res) 0
    simpa [fact_pack, hl] using h
  refine ⟨h2, ?_, ?_⟩
  · show (buildPacks 0 (queryHits res))[j].confidence = _
    rw [getElem_buildPacks (queryHits res) 0 j h h2]
    rfl
  · intro hd
    show 1/10 ≤ (buildPacks 0 (queryHits res))[j].confidence ∧
      (buildPacks 0 (queryHits res))[j].confidence ≤ 1
    rw [getElem_buildPacks (queryHits res) 0 j h h2]
    exact round2_bounds _ (le_max_left _ _) (max_le (by norm_num) (by linarith))

/-- Witness for C4 amended: a single hit at distance 1/4 gives
confidence round(0.75, 2) = 0.75, inside [0.1, 1]. -/
theorem fact_pack_confidence_formula_witness :
    (0 : ℚ) ≤ 1/4 ∧
      ((fact_pack (Except.ok ⟨[["x"]], [[⟨none, none, none, none, none, none⟩]],
        [[(1/4 : ℚ)]]⟩)).get ⟨0, by decide⟩).confidence = 3/4 ∧
      1/10 ≤ ((fact_pack (Except.ok ⟨[["x"]], [[⟨none, none, none, none, none, none⟩]],
        [[(1/4 : ℚ)]]⟩)).get ⟨0, by decide⟩).confidence := by
  obtain ⟨h2, hform, hb⟩ := fact_pack_confidence_formula
    ⟨[["x"]], [[⟨none, none, none, none, none, none⟩]], [[(1/4 : ℚ)]]⟩ 0 (by decide)
  have hd : (0 : ℚ) ≤ ((queryHits ⟨[["x"]], [[⟨none, none, none, none, none, none⟩]],
      [[(1/4 : ℚ)]]⟩)[0]).2.2 := by
    show (0 : ℚ) ≤ 1/4
    norm_num
  refine ⟨by norm_num, ?_, ?_⟩
  · rw [List.get_eq_getElem]
    rw [hform]
    show round2 (max (1/10) (1 - 1/4)) = 3/4
    unfold round2
    rw [max_eq_right (by norm_num : (1:ℚ)/10 ≤ 1 - 1/4)]
    rw [show (100 : ℚ) * (1 - 1/4) = ((75 : ℤ) : ℚ) by norm_num]
    rw [roundHalfEven_intCast]
    norm_num
  · rw [List.get_eq_getElem]
    exact (hb hd).1

/-- C5: for a fixed query result, fact_pack returns items exactly in the
store's order (the texts are the zipped documents, never re-sorted), and
when the store's distances are non-decreasing the confidences of the
returned list are non-increasing. -/
theorem fact_pack_order (res : QueryRes)
    (hs : List.Pairwise (· ≤ ·) (firstOrNil res.distances)) :
    (fact_pack (Except.ok res)).map FactItem.text = (queryHits res).map (fun x => x.1) ∧
      List.Pairwise (fun u v : FactItem => v.confidence ≤ u.confidence)
        (fact_pack (Except.ok res)) := by
  constructor
  · exact buildPacks_map_text (queryHits res) 0
  · refine buildPacks_conf_pairwise (queryHits res) 0 ?_
    exact zip3_pairwise_third (· ≤ ·) _ _ _ hs

/-- Witness for C5: two hits at distances 0 and 1/2 in store order. -/
theorem fact_pack_order_witness :
    (fact_pack (Except.ok ⟨[["x", "y"]],
        [[⟨none, none, none, none, none, none⟩, ⟨none, none, none, none, none, none⟩]],
        [[(0 : ℚ), 1/2]]⟩)).map FactItem.text =
      (queryHits ⟨[["x", "y"]],
        [[⟨none, none, none, none, none, none⟩, ⟨none, none, none, none, none, none⟩]],
        [[(0 : ℚ), 1/2]]⟩).map (fun x => x.1) ∧
      List.Pairwise (fun u v : FactItem => v.confidence ≤ u.confidence)
        (fact_pack (Except.ok ⟨[["x", "y"]],
          [[⟨none, none, none, none, none, none⟩, ⟨none, none, none, none, none, none⟩]],
          [[(0 : ℚ), 1/2]]⟩)) :=
  fact_pack_order _ (by
    refine List.pairwise_cons.mpr ⟨?_, List.pairwise_singleton _ _⟩
    intro b hb
    rw [List.mem_singleton.mp hb]
    norm_num)

/-- C8: fact_pack never escapes with an exception: a raised error from
the store query (or any step inside the try body) yields `[]`, and an
empty collection's query result also yields `[]` rather than an error. -/
theorem fact_pack_error_and_empty :
    (∀ e : Unit, fact_pack (Except.error e) = []) ∧
      fact_pack (Except.ok ⟨[[]], [[]], [[]]⟩) = [] ∧
      fact_pack (Except.ok ⟨[], [], []⟩) = [] :=
  ⟨fun _ => rfl, rfl, rfl⟩

/-- C9 counterexample: a hit whose metadata has no title key but has
source "doc.pdf" gets title "doc.pdf", not "Unknown Source". -/
theorem fact_pack_title_falls_back_to_source :
    (fact_pack (Except.ok ⟨[["t"]],
        [[⟨none, some "doc.pdf", none, none, none, none⟩]], [[(0 : ℚ)]]⟩)).map
      (fun it => it.source.title) = ["doc.pdf"] ∧
      "doc.pdf" ≠ "Unknown Source" := ⟨rfl, by decide⟩

/-- C9 amended: when a hit's metadata has no title key, the built title
falls back to the metadata source value, and equals "Unknown Source"
only when the source key is also absent. -/
theorem fact_pack_title_default (res : QueryRes) (j : Nat)
    (h : j < (fact_pack (Except.ok res)).length) :
    ∃ h2 : j < (queryHits res).length,
      (((queryHits res)[j]).2.1.title = none →
        ((fact_pack (Except.ok res))[j]).source.title =
          ((queryHits res)[j]).2.1.source.getD "Unknown Source") := by
  have h2 : j < (queryHits res).length := by
    have hl := length_buildPacks (queryHits res) 0
    simpa [fact_pack, hl] using h
  refine ⟨h2, fun ht => ?_⟩
  show (buildPacks 0 (queryHits res))[j].source.title = _
  rw [getElem_buildPacks (queryHits res) 0 j h h2]
  show pyOrStr ((queryHits res)[j]).2.1.title _ = _
  rw [ht]
  rfl

/-- Witness for C9 amended: metadata with no title and no source yields
"Unknown Source". -/
theorem fact_pack_title_default_witness :
    ((fact_pack (Except.ok ⟨[["t"]], [[⟨none, none, none, none, none, none⟩]],
      [[(0 : ℚ)]]⟩)).get ⟨0, by decide⟩).source.title = "Unknown Source" := by
  obtain ⟨h2, himp⟩ := fact_pack_title_default
    ⟨[["t"]], [[⟨none, none, none, none, none, none⟩]], [[(0 : ℚ)]]⟩ 0 (by decide)
  rw [List.get_eq_getElem]
  rw [himp rfl]
  rfl

/-! ## Ingestion: ingest_file / ingest_directory (src/rag/ingest.py) -/


/-- One extracted document chunk as produced by
`DocumentProcessor.process_document`: text plus the source file name,
page and document type (`doc_chunk['text']`, `['source']`,
`.get('page', 1)`, `.get('type', 'unknown')`). -/
structure DocChunk where
  text : List Char
  source : String
  page : Int
  dtype : String
deriving DecidableEq

/-- The metadata dict written for every upserted window in
`ingest_file` (the key `type` is called `dtype` here because `type` is
reserved in Lean). -/
structure IngestMeta where
  source : String
  filename : String
  page : Int
  chunk_index : Nat
  dtype : String
  title : String
  citeKey : String
deriving DecidableEq

/-- A stored vector-store entry: document text, embedding, metadata. -/
structure Entry (Emb : Type) where
  text : List Char
  emb : Emb
  meta : IngestMeta
deriving DecidableEq

/-- The vector store: an association list keyed by the entry id. -/
abbrev Store (Emb : Type) := List (String × Entry Emb)

/-- ChromaDB `collection.upsert` keyed by id: replace the entry in place
when the id already exists, else append it. -/
def upsert {Emb : Type} (store : Store Emb) (id : String) (e : Entry Emb) : Store Emb :=
  if store.any (fun p => p.1 == id) then
    store.map (fun p => if p.1 == id then (id, e) else p)
  else store ++ [(id, e)]

/-- The `for i, chunk_text in enumerate(text_chunks)` loop of
`ingest_file`: skip windows that are empty after strip, embed the rest
(an embedding failure raises, shown as `Except.error` together with the
partially updated store), build the deterministic id
`{source}_{page}_{i}` and metadata, and upsert.  `n` is the running
`total_chunks`. -/
def ingestChunks {Emb : Type} (embed : List Char → Except Unit Emb)
    (source : String) (page : Int) (dtype : String) :
    List (List Char) → Nat → Store Emb → Nat → Store Emb × Except Unit Nat
  | [], _, store, n => (store, Except.ok n)
  | c :: rest, i, store, n =>
    if (pyStrip c).isEmpty then ingestChunks embed source page dtype rest (i + 1) store n
    else
      match embed c with
      | Except.error e => (store, Except.error e)
      | Except.ok v =>
          let id := source ++ "_" ++ toString page ++ "_" ++ toString i
          let meta : IngestMeta :=
            { source := source, filename := source, page := page, chunk_index := i,
              dtype := dtype, title := source ++ " - Page " ++ toString page,
              citeKey := source ++ "_p" ++ toString page ++ "_" ++ toString i }
          ingestChunks embed source page dtype rest (i + 1)
            (upsert store id ⟨c, v, meta⟩) (n + 1)

/-- The outer `for doc_chunk in document_chunks` loop of `ingest_file`:
chunk each document chunk's text (the chunker may not terminate, shown
as `none`) and run the window loop; a raised embedding error escapes
`ingest_file` with the store as mutated so far. -/
def ingestDocChunks {Emb : Type} (embed : List Char → Except Unit Emb) (cs ov : Int)
    (fuel : Nat) : List DocChunk → Store Emb → Nat → Option (Store Emb × Except Unit Nat)
  | [], store, n => some (store, Except.ok n)
  | dc :: rest, store, n =>
    match chunkText dc.text cs ov fuel with
    | none => none
    | some ws =>
        match ingestChunks embed dc.source dc.page dc.dtype (ws.map Prod.snd) 0 store n with
        | (store2, Except.ok n2) => ingestDocChunks embed cs ov fuel rest store2 n2
        | (store2, Except.error e) => some (store2, Except.error e)

/-- `ingest_file` from `src/rag/ingest.py`, over already-extracted
document chunks (file reading and `process_document` are outside the
model; extraction failures there yield an empty chunk list).  Returns
the mutated store and either the number of upserted windows or the
raised error; `none` means the chunker looped past the fuel bound. -/
def ingest_file {Emb : Type} (embed : List Char → Except Unit Emb)
    (docChunks : List DocChunk) (cs ov : Int) (fuel : Nat) (store : Store Emb) :
    Option (Store Emb × Except Unit Nat) :=
  if docChunks.isEmpty then some (store, Except.ok 0)
  else ingestDocChunks embed cs ov fuel docChunks store 0

/-- `ingest_directory` from `src/rag/ingest.py`, over the per-file
extraction results of the enumerated supported files: calls
`ingest_file` on each file, catching (and merely logging) any raised
error, and accumulates `total_chunks` over the successful files. -/
def ingest_directory {Emb : Type} (embed : List Char → Except Unit Emb) (cs ov : Int)
    (fuel : Nat) : List (List DocChunk) → Store Emb → Nat → Option (Store Emb × Nat)
  | [], store, total => some (store, total)
  | f :: rest, store, total =>
    match ingest_file embed f cs ov fuel store with
    | none => none
    | some (store2, Except.ok n) => ingest_directory embed cs ov fuel rest store2 (total + n)
    | some (store2, Except.error _) => ingest_directory embed cs ov fuel rest store2 total

/-- The success/count outcome of the window loop, computed without the
store (used to state that success and count do not depend on the store
contents). -/
def countChunks {Emb : Type} (embed : List Char → Except Unit Emb) :
    List (List Char) → Nat → Except Unit Nat
  | [], _ => Except.ok 0
  | c :: rest, i =>
    if (pyStrip c).isEmpty then countChunks embed rest (i + 1)
    else
      match embed c with
      | Except.error e => Except.error e
      | Except.ok _ => (countChunks embed rest (i + 1)).map (· + 1)

/-- The store-free outcome of `ingest_file` over document chunks. -/
def countDocChunks {Emb : Type} (embed : List Char → Except Unit Emb) (cs ov : Int)
    (fuel : Nat) : List DocChunk → Option (Except Unit Nat)
  | [] => some (Except.ok 0)
  | dc :: rest =>
    match chunkText dc.text cs ov fuel with
    | none => none
    | some ws =>
        match countChunks embed (ws.map Prod.snd) 0 with
        | Except.ok k =>
            match countDocChunks embed cs ov fuel rest with
            | none => none
            | some (Except.ok m) => some (Except.ok (k + m))
            | some (Except.error e) => some (Except.error e)
        | Except.error e => some (Except.error e)

/-- The store-free outcome of `ingest_file` for one file. -/
def fileCount {Emb : Type} (embed : List Char → Except Unit Emb) (f : List DocChunk)
    (cs ov : Int) (fuel : Nat) : Option (Except Unit Nat) :=
  if f.isEmpty then some (Except.ok 0) else countDocChunks embed cs ov fuel f

/-- The ids of the windows that the window loop actually upserts (those
non-empty after strip), in loop order. -/
def liveIds (source : String) (page : Int) : List (List Char) → Nat → List String
  | [], _ => []
  | c :: rest, i =>
    if (pyStrip c).isEmpty then liveIds source page rest (i + 1)
    else (source ++ "_" ++ toString page ++ "_" ++ toString i) :: liveIds source page rest (i + 1)

/-- The ids upserted for one document chunk. -/
def docLiveIds (cs ov : Int) (fuel : Nat) (dc : DocChunk) : List String :=
  match chunkText dc.text cs ov fuel with
  | none => []
  | some ws => liveIds dc.source dc.page (ws.map Prod.snd) 0

/-- The ids upserted for a list of document chunks. -/
def docsLiveIds (cs ov : Int) (fuel : Nat) : List DocChunk → List String
  | [] => []
  | dc :: rest => docLiveIds cs ov fuel dc ++ docsLiveIds cs ov fuel rest



theorem upsert_any_iff {Emb : Type} (store : Store Emb) (id : String) :
    store.any (fun p => p.1 == id) = true ↔ id ∈ store.map Prod.fst := by
  rw [List.any_eq_true]
  constructor
  · rintro ⟨p, hp, hb⟩
    exact List.mem_map.mpr ⟨p, hp, eq_of_beq hb⟩
  · intro h
    obtain ⟨p, hp, he⟩ := List.mem_map.mp h
    exact ⟨p, hp, beq_iff_eq.mpr he⟩

theorem upsert_keys {Emb : Type} (store : Store Emb) (id : String) (e : Entry Emb) :
    (upsert store id e).map Prod.fst =
      if id ∈ store.map Prod.fst then store.map Prod.fst
      else store.map Prod.fst ++ [id] := by
  unfold upsert
  by_cases h : id ∈ store.map Prod.fst
  · rw [if_pos ((upsert_any_iff store id).mpr h), if_pos h]
    rw [List.map_map]
    refine List.map_congr_left ?_
    intro p hp
    by_cases hpe : p.1 = id
    · simp [Function.comp, hpe]
    · simp [Function.comp, hpe]
  · rw [if_neg (fun hc => h ((upsert_any_iff store id).mp hc)), if_neg h]
    simp

theorem mem_keys_upsert {Emb : Type} (store : Store Emb) (id : String) (e : Entry Emb) :
    id ∈ (upsert store id e).map Prod.fst := by
  rw [upsert_keys]
  by_cases h : id ∈ store.map Prod.fst
  · rw [if_pos h]; exact h
  · rw [if_neg h]; simp

theorem upsert_keys_mono {Emb : Type} (store : Store Emb) (id : String) (e : Entry Emb)
    (x : String) (hx : x ∈ store.map Prod.fst) : x ∈ (upsert store id e).map Prod.fst := by
  rw [upsert_keys]
  by_cases h : id ∈ store.map Prod.fst
  · rw [if_pos h]; exact hx
  · rw [if_neg h]; exact List.mem_append_left _ hx

theorem upsert_keys_of_mem {Emb : Type} (store : Store Emb) (id : String) (e : Entry Emb)
    (h : id ∈ store.map Prod.fst) :
    (upsert store id e).map Prod.fst = store.map Prod.fst := by
  rw [upsert_keys, if_pos h]

theorem mem_upsert {Emb : Type} (store : Store Emb) (id : String) (e : Entry Emb)
    (p : String × Entry Emb) (hp : p ∈ upsert store id e) : p ∈ store ∨ p = (id, e) := by
  unfold upsert at hp
  by_cases h : store.any (fun q => q.1 == id) = true
  · rw [if_pos h] at hp
    obtain ⟨q, hq, he⟩ := List.mem_map.mp hp
    by_cases hqe : q.1 = id
    · right; rw [← he]; simp [hqe]
    · left; rw [← he]; simp [hqe]; exact hq
  · rw [if_neg h] at hp
    rcases List.mem_append.mp hp with h1 | h1
    · exact Or.inl h1
    · exact Or.inr (List.mem_singleton.mp h1)

theorem ingestChunks_snd {Emb : Type} (embed : List Char → Except Unit Emb)
    (s : String) (pg : Int) (ty : String) :
    ∀ (chunks : List (List Char)) (i : Nat) (store : Store Emb) (n : Nat),
      (ingestChunks embed s pg ty chunks i store n).2 =
        match countChunks embed chunks i with
        | Except.ok k => Except.ok (n + k)
        | Except.error e => Except.error e := by
  intro chunks
  induction chunks with
  | nil => intro i store n; simp [ingestChunks, countChunks]
  | cons c rest ih =>
      intro i store n
      rw [ingestChunks, countChunks]
      by_cases hemp : (pyStrip c).isEmpty = true
      · rw [if_pos hemp, if_pos hemp]
        exact ih (i + 1) store n
      · rw [if_neg hemp, if_neg hemp]
        cases hemb : embed c with
        | error e => rfl
        | ok v =>
            dsimp only
            rw [ih (i + 1) _ (n + 1)]
            cases hc : countChunks embed rest (i + 1) with
            | ok k => show Except.ok (n + 1 + k) = Except.ok (n + (k + 1)); congr 1; omega
            | error e => rfl



theorem ingestDocChunks_snd {Emb : Type} (embed : List Char → Except Unit Emb)
    (cs ov : Int) (fuel : Nat) :
    ∀ (dcs : List DocChunk) (store : Store Emb) (n : Nat),
      (ingestDocChunks embed cs ov fuel dcs store n).map Prod.snd =
        (countDocChunks embed cs ov fuel dcs).map (fun r =>
          match r with
          | Except.ok k => Except.ok (n + k)
          | Except.error e => Except.error e) := by
  intro dcs
  induction dcs with
  | nil => intro store n; simp [ingestDocChunks, countDocChunks]
  | cons dc rest ih =>
      intro store n
      rw [ingestDocChunks, countDocChunks]
      cases hct : chunkText dc.text cs ov fuel with
      | none => rfl
      | some ws =>
          dsimp only
          have hsnd := ingestChunks_snd embed dc.source dc.page dc.dtype
            (ws.map Prod.snd) 0 store n
          cases hrun : ingestChunks embed dc.source dc.page dc.dtype
              (ws.map Prod.snd) 0 store n with
          | mk store2 r =>
              rw [hrun] at hsnd
              dsimp only at hsnd
              cases hc : countChunks embed (ws.map Prod.snd) 0 with
              | ok k =>
                  rw [hc] at hsnd
                  dsimp only at hsnd
                  subst hsnd
                  dsimp only
                  rw [ih store2 (n + k)]
                  cases hd : countDocChunks embed cs ov fuel rest with
                  | none => rfl
                  | some r2 =>
                      cases r2 with
                      | ok m =>
                          show some (Except.ok (n + k + m)) = some (Except.ok (n + (k + m)))
                          congr 2
                          omega
                      | error e => rfl
              | error e =>
                  rw [hc] at hsnd
                  dsimp only at hsnd
                  subst hsnd
                  rfl

theorem ingest_file_snd {Emb : Type} (embed : List Char → Except Unit Emb)
    (f : List DocChunk) (cs ov : Int) (fuel : Nat) (store : Store Emb) :
    (ingest_file embed f cs ov fuel store).map Prod.snd = fileCount embed f cs ov fuel := by
  unfold ingest_file fileCount
  by_cases he : f.isEmpty = true
  · rw [if_pos he, if_pos he]
    rfl
  · rw [if_neg he, if_neg he]
    rw [ingestDocChunks_snd embed cs ov fuel f store 0]
    cases hd : countDocChunks embed cs ov fuel f with
    | none => rfl
    | some r =>
        cases r with
        | ok k => show some (Except.ok (0 + k)) = some (Except.ok k); congr 2; omega
        | error e => rfl



theorem ingestChunks_keys_mono {Emb : Type} (embed : List Char → Except Unit Emb)
    (s : String) (pg : Int) (ty : String) :
    ∀ (chunks : List (List Char)) (i : Nat) (store store2 : Store Emb) (n : Nat)
      (r : Except Unit Nat),
      ingestChunks embed s pg ty chunks i store n = (store2, r) →
      ∀ x ∈ store.map Prod.fst, x ∈ store2.map Prod.fst := by
  intro chunks
  induction chunks with
  | nil =>
      intro i store store2 n r h x hx
      rw [ingestChunks] at h
      cases h
      exact hx
  | cons c rest ih =>
      intro i store store2 n r h x hx
      rw [ingestChunks] at h
      by_cases hemp : (pyStrip c).isEmpty = true
      · rw [if_pos hemp] at h
        exact ih (i + 1) store store2 n r h x hx
      · rw [if_neg hemp] at h
        cases hemb : embed c with
        | error e =>
            rw [hemb] at h
            cases h
            exact hx
        | ok v =>
            rw [hemb] at h
            dsimp only at h
            exact ih (i + 1) _ store2 (n + 1) r h x (upsert_keys_mono store _ _ x hx)

theorem ingestChunks_ok_ids {Emb : Type} (embed : List Char → Except Unit Emb)
    (s : String) (pg : Int) (ty : String) :
    ∀ (chunks : List (List Char)) (i : Nat) (store store2 : Store Emb) (n n2 : Nat),
      ingestChunks embed s pg ty chunks i store n = (store2, Except.ok n2) →
      ∀ x ∈ liveIds s pg chunks i, x ∈ store2.map Prod.fst := by
  intro chunks
  induction chunks with
  | nil => intro i store store2 n n2 h x hx; exact absurd hx (by simp [liveIds])
  | cons c rest ih =>
      intro i store store2 n n2 h x hx
      rw [ingestChunks] at h
      rw [liveIds] at hx
      by_cases hemp : (pyStrip c).isEmpty = true
      · rw [if_pos hemp] at h
        rw [if_pos hemp] at hx
        exact ih (i + 1) store store2 n n2 h x hx
      · rw [if_neg hemp] at h
        rw [if_neg hemp] at hx
        cases hemb : embed c with
        | error e =>
            rw [hemb] at h
            cases h
        | ok v =>
            rw [hemb] at h
            dsimp only at h
            rcases List.mem_cons.mp hx with h1 | h1
            · rw [h1]
              exact ingestChunks_keys_mono embed s pg ty rest (i + 1) _ store2 (n + 1)
                (Except.ok n2) h _ (mem_keys_upsert store _ _)
            · exact ih (i + 1) _ store2 (n + 1) n2 h x h1

theorem ingestChunks_keys_pres {Emb : Type} (embed : List Char → Except Unit Emb)
    (s : String) (pg : Int) (ty : String) :
    ∀ (chunks : List (List Char)) (i : Nat) (store store2 : Store Emb) (n : Nat)
      (r : Except Unit Nat),
      (∀ x ∈ liveIds s pg chunks i, x ∈ store.map Prod.fst) →
      ingestChunks embed s pg ty chunks i store n = (store2, r) →
      store2.map Prod.fst = store.map Prod.fst := by
  intro chunks
  induction chunks with
  | nil =>
      intro i store store2 n r _ h
      rw [ingestChunks] at h
      cases h
      rfl
  | cons c rest ih =>
      intro i store store2 n r hids h
      rw [ingestChunks] at h
      by_cases hemp : (pyStrip c).isEmpty = true
      · rw [if_pos hemp] at h
        refine ih (i + 1) store store2 n r ?_ h
        intro x hx
        refine hids x ?_
        rw [liveIds, if_pos hemp]
        exact hx
      · rw [if_neg hemp] at h
        cases hemb : embed c with
        | error e =>
            rw [hemb] at h
            cases h
            rfl
        | ok v =>
            rw [hemb] at h
            dsimp only at h
            have hid : (s ++ "_" ++ toString pg ++ "_" ++ toString i) ∈ store.map Prod.fst := by
              refine hids _ ?_
              rw [liveIds, if_neg hemp]
              exact List.mem_cons_self _ _
            have hpres := upsert_keys_of_mem store _
              (Entry.mk c v (IngestMeta.mk s s pg i ty (s ++ " - Page " ++ toString pg)
                (s ++ "_p" ++ toString pg ++ "_" ++ toString i))) hid
            rw [← hpres]
            refine ih (i + 1) _ store2 (n + 1) r ?_ h
            intro x hx
            rw [hpres]
            refine hids x ?_
            rw [liveIds, if_neg hemp]
            exact List.mem_cons_of_mem _ hx



theorem ingestDocChunks_keys_mono {Emb : Type} (embed : List Char → Except Unit Emb)
    (cs ov : Int) (fuel : Nat) :
    ∀ (dcs : List DocChunk) (store store2 : Store Emb) (n : Nat) (r : Except Unit Nat),
      ingestDocChunks embed cs ov fuel dcs store n = some (store2, r) →
      ∀ x ∈ store.map Prod.fst, x ∈ store2.map Prod.fst := by
  intro dcs
  induction dcs with
  | nil =>
      intro store store2 n r h x hx
      rw [ingestDocChunks] at h
      cases h
      exact hx
  | cons dc rest ih =>
      intro store store2 n r h x hx
      rw [ingestDocChunks] at h
      cases hct : chunkText dc.text cs ov fuel with
      | none => rw [hct] at h; cases h
      | some ws =>
          rw [hct] at h
          dsimp only at h
          cases hrun : ingestChunks embed dc.source dc.page dc.dtype
              (ws.map Prod.snd) 0 store n with
          | mk storeA rA =>
              rw [hrun] at h
              have hmonoA := ingestChunks_keys_mono embed dc.source dc.page dc.dtype
                (ws.map Prod.snd) 0 store storeA n rA hrun x hx
              cases rA with
              | ok nA => exact ih storeA store2 nA r h x hmonoA
              | error e =>
                  dsimp only at h
                  cases h
                  exact hmonoA

theorem ingestDocChunks_ok_ids {Emb : Type} (embed : List Char → Except Unit Emb)
    (cs ov : Int) (fuel : Nat) :
    ∀ (dcs : List DocChunk) (store store2 : Store Emb) (n n2 : Nat),
      ingestDocChunks embed cs ov fuel dcs store n = some (store2, Except.ok n2) →
      ∀ x ∈ docsLiveIds cs ov fuel dcs, x ∈ store2.map Prod.fst := by
  intro dcs
  induction dcs with
  | nil => intro store store2 n n2 h x hx; exact absurd hx (by simp [docsLiveIds])
  | cons dc rest ih =>
      intro store store2 n n2 h x hx
      rw [ingestDocChunks] at h
      rw [docsLiveIds] at hx
      cases hct : chunkText dc.text cs ov fuel with
      | none => rw [hct] at h; cases h
      | some ws =>
          rw [hct] at h
          dsimp only at h
          cases hrun : ingestChunks embed dc.source dc.page dc.dtype
              (ws.map Prod.snd) 0 store n with
          | mk storeA rA =>
              rw [hrun] at h
              cases rA with
              | ok nA =>
                  rcases List.mem_append.mp hx with h1 | h1
                  · rw [docLiveIds, hct] at h1
                    have hinA := ingestChunks_ok_ids embed dc.source dc.page dc.dtype
                      (ws.map Prod.snd) 0 store storeA n nA hrun x h1
                    exact ingestDocChunks_keys_mono embed cs ov fuel rest storeA store2 nA
                      (Except.ok n2) h x hinA
                  · exact ih storeA store2 nA n2 h x h1
              | error e =>
                  dsimp only at h
                  rw [Option.some.injEq, Prod.mk.injEq] at h
                  exact absurd h.2 (by simp)

theorem ingestDocChunks_keys_pres {Emb : Type} (embed : List Char → Except Unit Emb)
    (cs ov : Int) (fuel : Nat) :
    ∀ (dcs : List DocChunk) (store store2 : Store Emb) (n : Nat) (r : Except Unit Nat),
      (∀ x ∈ docsLiveIds cs ov fuel dcs, x ∈ store.map Prod.fst) →
      ingestDocChunks embed cs ov fuel dcs store n = some (store2, r) →
      store2.map Prod.fst = store.map Prod.fst := by
  intro dcs
  induction dcs with
  | nil =>
      intro store store2 n r _ h
      rw [ingestDocChunks] at h
      cases h
      rfl
  | cons dc rest ih =>
      intro store store2 n r hids h
      rw [ingestDocChunks] at h
      cases hct : chunkText dc.text cs ov fuel with
      | none => rw [hct] at h; cases h
      | some ws =>
          rw [hct] at h
          dsimp only at h
          cases hrun : ingestChunks embed dc.source dc.page dc.dtype
              (ws.map Prod.snd) 0 store n with
          | mk storeA rA =>
              rw [hrun] at h
              have hpresA : storeA.map Prod.fst = store.map Prod.fst := by
                refine ingestChunks_keys_pres embed dc.source dc.page dc.dtype
                  (ws.map Prod.snd) 0 store storeA n rA ?_ hrun
                intro x hx
                refine hids x ?_
                rw [docsLiveIds]
                refine List.mem_append_left _ ?_
                rw [docLiveIds, hct]
                exact hx
              cases rA with
              | ok nA =>
                  have := ih storeA store2 nA r ?_ h
                  · rw [this, hpresA]
                  · intro x hx
                    rw [hpresA]
                    refine hids x ?_
                    rw [docsLiveIds]
                    exact List.mem_append_right _ hx
              | error e =>
                  dsimp only at h
                  cases h
                  exact hpresA



theorem ingestChunks_mem {Emb : Type} (embed : List Char → Except Unit Emb)
    (s : String) (pg : Int) (ty : String) :
    ∀ (chunks : List (List Char)) (i : Nat) (store store2 : Store Emb) (n : Nat)
      (r : Except Unit Nat),
      ingestChunks embed s pg ty chunks i store n = (store2, r) →
      ∀ p ∈ store2, p ∈ store ∨ (pyStrip p.2.text).isEmpty = false := by
  intro chunks
  induction chunks with
  | nil =>
      intro i store store2 n r h p hp
      rw [ingestChunks] at h
      cases h
      exact Or.inl hp
  | cons c rest ih =>
      intro i store store2 n r h p hp
      rw [ingestChunks] at h
      by_cases hemp : (pyStrip c).isEmpty = true
      · rw [if_pos hemp] at h
        exact ih (i + 1) store store2 n r h p hp
      · rw [if_neg hemp] at h
        cases hemb : embed c with
        | error e =>
            rw [hemb] at h
            cases h
            exact Or.inl hp
        | ok v =>
            rw [hemb] at h
            dsimp only at h
            rcases ih (i + 1) _ store2 (n + 1) r h p hp with h1 | h1
            · rcases mem_upsert store _ _ p h1 with h2 | h2
              · exact Or.inl h2
              · right
                rw [h2]
                exact Bool.not_eq_true _ ▸ (by simpa using hemp)
            · exact Or.inr h1

theorem ingestDocChunks_mem {Emb : Type} (embed : List Char → Except Unit Emb)
    (cs ov : Int) (fuel : Nat) :
    ∀ (dcs : List DocChunk) (store store2 : Store Emb) (n : Nat) (r : Except Unit Nat),
      ingestDocChunks embed cs ov fuel dcs store n = some (store2, r) →
      ∀ p ∈ store2, p ∈ store ∨ (pyStrip p.2.text).isEmpty = false := by
  intro dcs
  induction dcs with
  | nil =>
      intro store store2 n r h p hp
      rw [ingestDocChunks] at h
      cases h
      exact Or.inl hp
  | cons dc rest ih =>
      intro store store2 n r h p hp
      rw [ingestDocChunks] at h
      cases hct : chunkText dc.text cs ov fuel with
      | none => rw [hct] at h; cases h
      | some ws =>
          rw [hct] at h
          dsimp only at h
          cases hrun : ingestChunks embed dc.source dc.page dc.dtype
              (ws.map Prod.snd) 0 store n with
          | mk storeA rA =>
              rw [hrun] at h
              have hA := ingestChunks_mem embed dc.source dc.page dc.dtype
                (ws.map Prod.snd) 0 store storeA n rA hrun
              cases rA with
              | ok nA =>
                  rcases ih storeA store2 nA r h p hp with h1 | h1
                  · exact hA p h1
                  · exact Or.inr h1
              | error e =>
                  dsimp only at h
                  cases h
                  exact hA p hp

/-- C10: every entry that `ingest_file` leaves in the vector store either
was already there or has text that is non-empty after strip: the
`if not chunk_text.strip(): continue` guard filters every window before
embedding and upserting, including the whitespace-only window that
`chunk_text`'s short-text base case can return unchanged. -/
theorem ingest_file_entries_stripped_nonempty {Emb : Type}
    (embed : List Char → Except Unit Emb) (docChunks : List DocChunk) (cs ov : Int)
    (fuel : Nat) (store store2 : Store Emb) (r : Except Unit Nat)
    (h : ingest_file embed docChunks cs ov fuel store = some (store2, r)) :
    ∀ p ∈ store2, p ∈ store ∨ (pyStrip p.2.text).isEmpty = false := by
  unfold ingest_file at h
  by_cases he : docChunks.isEmpty = true
  · rw [if_pos he] at h
    cases h
    exact fun p hp => Or.inl hp
  · rw [if_neg he] at h
    exact ingestDocChunks_mem embed cs ov fuel docChunks store store2 0 r h

/-- Witness for C10: ingesting one single-character document into an
empty store; the stored entry's text strips to a non-empty string. -/
theorem ingest_file_entries_stripped_nonempty_witness :
    (("s_1_0", Entry.mk ['h'] () (IngestMeta.mk "s" "s" 1 0 "t" "s - Page 1" "s_p1_0")) ∈
        ([] : Store Unit)) ∨
      (pyStrip (Entry.mk ['h'] () (IngestMeta.mk "s" "s" 1 0 "t" "s - Page 1"
        "s_p1_0")).text).isEmpty = false := by
  refine ingest_file_entries_stripped_nonempty (fun _ => Except.ok ())
    [DocChunk.mk ['h'] "s" 1 "t"] 1 0 1 []
    [("s_1_0", Entry.mk ['h'] () (IngestMeta.mk "s" "s" 1 0 "t" "s - Page 1" "s_p1_0"))]
    (Except.ok 1) (by rfl) _ (by decide)



/-- C6: ingestion is idempotent by id.  If `ingest_file` succeeds on a
store, running it again on the result (same extracted content, hence the
same deterministically derived `{source}_{page}_{chunk_index}` ids)
succeeds with the same chunk count, leaves the set of ids unchanged, and
in particular leaves the total entry count unchanged, because `upsert`
with an existing id replaces in place. -/
theorem ingest_file_idempotent {Emb : Type} (embed : List Char → Except Unit Emb)
    (docChunks : List DocChunk) (cs ov : Int) (fuel : Nat) (store store1 : Store Emb)
    (n1 : Nat) (h1 : ingest_file embed docChunks cs ov fuel store = some (store1, Except.ok n1)) :
    ∃ store2, ingest_file embed docChunks cs ov fuel store1 = some (store2, Except.ok n1) ∧
      store2.map Prod.fst = store1.map Prod.fst ∧ store2.length = store1.length := by
  have hsnd1 := ingest_file_snd embed docChunks cs ov fuel store
  have hsnd2 := ingest_file_snd embed docChunks cs ov fuel store1
  rw [h1] at hsnd1
  rw [← hsnd1] at hsnd2
  cases hrun2 : ingest_file embed docChunks cs ov fuel store1 with
  | none => rw [hrun2] at hsnd2; exact absurd hsnd2 (by simp)
  | some p2 =>
      obtain ⟨store2, r2⟩ := p2
      rw [hrun2] at hsnd2
      have hr2 : r2 = Except.ok n1 := by
        have := Option.some.inj hsnd2
        exact this
      subst hr2
      refine ⟨store2, rfl, ?_, ?_⟩
      · unfold ingest_file at h1 hrun2
        by_cases he : docChunks.isEmpty = true
        · rw [if_pos he] at h1 hrun2
          cases h1
          cases hrun2
          rfl
        · rw [if_neg he] at h1 hrun2
          have hids := ingestDocChunks_ok_ids embed cs ov fuel docChunks store store1 0 n1 h1
          exact ingestDocChunks_keys_pres embed cs ov fuel docChunks store1 store2 0
            (Except.ok n1) hids hrun2
      · have hkeys : store2.map Prod.fst = store1.map Prod.fst := by
          unfold ingest_file at h1 hrun2
          by_cases he : docChunks.isEmpty = true
          · rw [if_pos he] at h1 hrun2
            cases h1
            cases hrun2
            rfl
          · rw [if_neg he] at h1 hrun2
            have hids := ingestDocChunks_ok_ids embed cs ov fuel docChunks store store1 0 n1 h1
            exact ingestDocChunks_keys_pres embed cs ov fuel docChunks store1 store2 0
              (Except.ok n1) hids hrun2
        have := congrArg List.length hkeys
        simpa using this

/-- Witness for C6: re-ingesting the one-chunk file over the
singleton store produced by the first ingestion. -/
theorem ingest_file_idempotent_witness :
    ∃ store2, ingest_file (fun _ => Except.ok ()) [DocChunk.mk ['h'] "s" 1 "t"] 1 0 1
        [("s_1_0", Entry.mk ['h'] () (IngestMeta.mk "s" "s" 1 0 "t" "s - Page 1" "s_p1_0"))] =
        some (store2, Except.ok 1) ∧
      store2.map Prod.fst =
        [("s_1_0", Entry.mk ['h'] ()
          (IngestMeta.mk "s" "s" 1 0 "t" "s - Page 1" "s_p1_0"))].map Prod.fst ∧
      store2.length = [("s_1_0", Entry.mk ['h'] ()
        (IngestMeta.mk "s" "s" 1 0 "t" "s - Page 1" "s_p1_0"))].length :=
  ingest_file_idempotent (fun _ => Except.ok ()) [DocChunk.mk ['h'] "s" 1 "t"] 1 0 1 []
    [("s_1_0", Entry.mk ['h'] () (IngestMeta.mk "s" "s" 1 0 "t" "s - Page 1" "s_p1_0"))]
    1 (by rfl)

/-- C7: directory ingestion has partial-failure semantics: it is a total
function (a raised per-file error is caught and skipped, never
propagated), and the returned total is the accumulator plus the sum of
the per-file chunk counts of exactly the files whose ingestion
succeeded; files that raise contribute zero. -/
theorem ingest_directory_sum {Emb : Type} (embed : List Char → Except Unit Emb)
    (cs ov : Int) (fuel : Nat) :
    ∀ (files : List (List DocChunk)) (store st2 : Store Emb) (total grand : Nat),
      ingest_directory embed cs ov fuel files store total = some (st2, grand) →
      grand = total + (files.map (fun f =>
        match fileCount embed f cs ov fuel with
        | some (Except.ok n) => n
        | _ => 0)).sum := by
  intro files
  induction files with
  | nil =>
      intro store st2 total grand h
      rw [ingest_directory] at h
      rw [Option.some.injEq, Prod.mk.injEq] at h
      simp [← h.2]
  | cons f rest ih =>
      intro store st2 total grand h
      rw [ingest_directory] at h
      have hsnd := ingest_file_snd embed f cs ov fuel store
      cases hrun : ingest_file embed f cs ov fuel store with
      | none => rw [hrun] at h; cases h
      | some p =>
          obtain ⟨storeA, rA⟩ := p
          rw [hrun] at h hsnd
          cases rA with
          | ok nA =>
              have hrec := ih storeA st2 (total + nA) grand h
              have hfc : fileCount embed f cs ov fuel = some (Except.ok nA) := hsnd.symm
              rw [List.map_cons, List.sum_cons, hfc]
              show grand = total + (nA + _)
              omega
          | error e =>
              have hrec := ih storeA st2 total grand h
              have hfc : fileCount embed f cs ov fuel = some (Except.error e) := hsnd.symm
              rw [List.map_cons, List.sum_cons, hfc]
              show grand = total + (0 + _)
              omega

/-- Witness for C7: two one-chunk files, the second of which fails to
embed; the directory total counts only the first. -/
theorem ingest_directory_sum_witness :
    1 = 0 + ([[DocChunk.mk ['g'] "s" 1 "t"], [DocChunk.mk ['b'] "c" 1 "t"]].map (fun f =>
      match fileCount (fun c => if c = ['b'] then Except.error () else Except.ok ())
          f (1 : Int) (0 : Int) 1 with
      | some (Except.ok n) => n
      | _ => 0)).sum := by
  refine ingest_directory_sum (fun c => if c = ['b'] then Except.error () else Except.ok ())
    1 0 1 [[DocChunk.mk ['g'] "s" 1 "t"], [DocChunk.mk ['b'] "c" 1 "t"]] []
    [("s_1_0", Entry.mk ['g'] () (IngestMeta.mk "s" "s" 1 0 "t" "s - Page 1" "s_p1_0"))]
    0 1 (by rfl)

end BookCreator
